import Mathlib

/-!
# Verification of the synteny block detection and chaining engine

Shallow embedding of `src/algorithms/synteny.py` (the `jcvi` repository):
the single-linkage clustering scan (`synteny_scan`), its score filter
(`_score`), the blast ingestion with self-comparison canonicalization
(`read_blast`), the nearest-neighbor liftover (`synteny_liftover`) and the
chaining loop of `mcscan`.

Python integers are embedded as `Int` (coordinates, distances) or `Nat`
(counts, identifiers).  Python tuples `(x, y)` become `Int × Int` and tuple
comparison becomes the lexicographic order `PtLe`.  The in-place
`points.sort()` is made explicit by returning the post-call state of the
argument list alongside the result (`synteny_scan_st`).
-/

/-- A match point `(x, y)`: x indexes the query order, y the subject order. -/
abbrev Point := Int × Int

/-- Python's tuple comparison `(x, y) <= (x', y')`: lexicographic order. -/
def PtLe (p q : Point) : Prop :=
  p.1 < q.1 ∨ (p.1 = q.1 ∧ p.2 ≤ q.2)

instance : DecidableRel PtLe := fun p q => by
  unfold PtLe; infer_instance

instance : IsTotal Point PtLe :=
  ⟨fun p q => by unfold PtLe; omega⟩

instance : IsTrans Point PtLe :=
  ⟨fun p q r hpq hqr => by unfold PtLe at *; omega⟩

instance : IsAntisymm Point PtLe :=
  ⟨fun p q hpq hqp => by
    unfold PtLe at *
    have h1 : p.1 = q.1 := by omega
    have h2 : p.2 = q.2 := by omega
    exact Prod.ext h1 h2⟩

/-- `points.sort()`: Python sorts the list of tuples lexicographically. -/
def sortPoints (l : List Point) : List Point :=
  List.insertionSort PtLe l

/-- `_score(cluster)`: `min(len(set(x)), len(set(y)))`, the number of
non-repetitive matches (distinct coordinates on the smaller axis). -/
def score (cluster : List Point) : Nat :=
  min ((cluster.map Prod.fst).dedup.length) ((cluster.map Prod.snd).dedup.length)

/-- The backward scan of `synteny_scan` for a single point `p`:
`for j in xrange(i - 1, -1, -1)` over the reversed prefix `rev`
(nearest predecessor first).  `if del_x > xdist: break` ends the scan;
`if abs(del_y) > ydist: continue` skips the candidate; otherwise the pair
`(p, rev[j])` is joined.  Returns the list of joined pairs. -/
def scanBack (xdist ydist : Int) (p : Point) : List Point → List (Point × Point)
  | [] => []
  | q :: rest =>
    if xdist < p.1 - q.1 then []
    else if ydist < |p.2 - q.2| then scanBack xdist ydist p rest
    else (p, q) :: scanBack xdist ydist p rest

/-- The outer loop of `synteny_scan`: process each point of `l` in order,
carrying the reversed prefix of already-processed points, and collect every
joined pair. -/
def joinsAux (xdist ydist : Int) (rev : List Point) : List Point → List (Point × Point)
  | [] => []
  | p :: rest => scanBack xdist ydist p rev ++ joinsAux xdist ydist (p :: rev) rest

/-- All pairs `(points[i], points[j])` joined by the double loop of
`synteny_scan` on the (sorted) point list `l`. -/
def allJoins (xdist ydist : Int) (l : List Point) : List (Point × Point) :=
  joinsAux xdist ydist [] l

/-- Modelled from the spec: `jcvi.utils.grouper.Grouper` is a disjoint-set
(union-find) structure and its source is not under `src/` (only its caller
`synteny_scan` is).  Per §4.1/§9 of the spec, `join` unions the two points'
groups ("union-find with union-by-any-root is acceptable; no rank
requirement beyond correctness"): all groups touching `a` or `b` are merged
with `{a, b}` into one group. -/
def addJoin (a b : Point) (gs : List (List Point)) : List (List Point) :=
  let touched := gs.filter fun g => decide (a ∈ g ∨ b ∈ g)
  let untouched := gs.filter fun g => !decide (a ∈ g ∨ b ∈ g)
  (a :: b :: touched.flatten).dedup :: untouched

/-- Modelled from the spec: running every `clusters.join(points[i], points[j])`
of the scan on an initially empty union-find structure. -/
def runJoins (joins : List (Point × Point)) : List (List Point) :=
  joins.foldl (fun gs j => addJoin j.1 j.2 gs) []

/-- Modelled from the spec (§4.1 step 3): "Collect the union-find partition
into clusters" — the groups produced by the joins, plus a singleton group for
every distinct point that was never joined (the spec's concrete scenario
scores the unjoined point `(100,100)` as a singleton cluster of score 1). -/
def collectClusters (l : List Point) (joins : List (Point × Point)) : List (List Point) :=
  let gs := runJoins joins
  gs ++ (l.dedup.filter fun p => decide (∀ g ∈ gs, p ∉ g)).map (fun p => [p])

/-- The clusters collected by `synteny_scan` before the `_score >= N`
filter: the union-find partition of the sorted point list under the joins
performed by the scan. -/
def scanClusters (points : List Point) (xdist ydist : Int) : List (List Point) :=
  collectClusters (sortPoints points) (allJoins xdist ydist (sortPoints points))

/-- `synteny_scan(points, xdist, ydist, N)` with the in-place mutation of the
argument made explicit: the first component is the state of the caller's
`points` list after the call (`points.sort()` sorts it in place), the second
the returned cluster list (`[sorted(cluster) for cluster in list(clusters)
if _score(cluster) >= N]`). -/
def synteny_scan_st (points : List Point) (xdist ydist : Int) (N : Nat) :
    List Point × List (List Point) :=
  (sortPoints points,
    ((scanClusters points xdist ydist).filter fun c => decide (N ≤ score c)).map sortPoints)

/-- The return value of `synteny_scan(points, xdist, ydist, N)`. -/
def synteny_scan (points : List Point) (xdist ydist : Int) (N : Nat) :
    List (List Point) :=
  (synteny_scan_st points xdist ydist N).2

/-! ## Interval chaining (`mcscan`) -/

/-- `Range(seqid, start, end, score, id)` from `jcvi.utils.range`: one
collinear block projected onto the reference axis.  `end` is a Lean keyword,
so the field is called `stop`.  Chromosome identifiers are abstracted to
numeric tokens. -/
structure SRange where
  seqid : Nat
  start : Int
  stop : Int
  rscore : Int
  id : Nat
deriving DecidableEq, Repr

/-- Overlap test on ranges, per the spec's words:
`start_a < end_b && start_b < end_a`. -/
def overlaps (a b : SRange) : Bool :=
  a.start < b.stop && b.start < a.stop

/-- Total score of a set of ranges. -/
def totalScore (rs : List SRange) : Int :=
  (rs.map SRange.rscore).sum

/-- Modelled from the spec: `range_chain` lives in `jcvi.utils.range`, which
is not under `src/` (only its caller `mcscan` is).  Per §4.3 of the spec it
computes "one maximum-total-score subset of mutually non-overlapping Ranges"
(weighted interval scheduling) and returns it with its score.  Candidates
are enumerated as sublists; among equal scores the later candidate in
sublist order is kept, which is immaterial to the claims settled here. -/
def range_chain (rs : List SRange) : List SRange × Int :=
  let cands := rs.sublists.filter fun t =>
    decide (t.Pairwise fun a b => overlaps a b = false)
  let best := cands.foldl (fun acc t =>
    if totalScore acc < totalScore t then t else acc) []
  (best, totalScore best)

/-- The chaining loop of `mcscan` (lines 274–292 of
`src/algorithms/synteny.py`): while ranges remain and the iteration cap is
not reached, select one chain via `range_chain`, emit it as a track, and
remove its members (by `id`) from the pool. -/
def mcscan (iterCap : Nat) (ranges : List SRange) : List (List SRange) :=
  match iterCap, ranges with
  | 0, _ => []
  | _, [] => []
  | n + 1, rs =>
    let selected := (range_chain rs).1
    let selIds := selected.map SRange.id
    selected :: mcscan n (rs.filter fun r => decide (r.id ∉ selIds))

/-! ## Nearest-neighbor liftover (`synteny_liftover`) -/

/-- L1 distance between two 2-d points. -/
def l1dist (p q : Point) : Int :=
  |p.1 - q.1| + |p.2 - q.2|

/-- The first two coordinates of a hit row (hit rows may carry extra
fields; `synteny_liftover` slices `points[:, :2]` for the query). -/
def firstTwo (row : List Int) : Point :=
  (row.headD 0, (row.drop 1).headD 0)

/-- Modelled from the spec: the `scipy.spatial.cKDTree` query is an external
collaborator ("`query(point, max_dist) -> Option<(nearest_point, distance)>`",
spec §9); `idx == tree.n` signals that the nearest anchor is farther than
`dist`, so the hit is kept iff some anchor lies within L1 distance `dist`. -/
def kdWithin (anchors : List Point) (q : Point) (dist : Int) : Bool :=
  anchors.any fun a => decide (l1dist q a ≤ dist)

/-- `synteny_liftover(points, anchors, dist)`.  `np.array([])` is
one-dimensional, so on an empty hit list the source's `points.shape[1]`
raises `IndexError` (modelled as `none`); otherwise each hit row is queried
by its first two coordinates (`points[:, :2] if points.shape[1] > 2 else
points`) and yielded when its nearest anchor is within `dist`. -/
def synteny_liftover (points : List (List Int)) (anchors : List Point)
    (dist : Int) : Option (List (List Int)) :=
  match points with
  | [] => none
  | r0 :: _ =>
    let ppoints := if 2 < r0.length then points.map (fun r => r.take 2) else points
    some ((((r0 :: points.tail).zip ppoints).filter fun rq =>
      kdWithin anchors (firstTwo rq.2) dist).map Prod.fst)

/-! ## Blast ingestion (`read_blast`) -/

/-- The fields of a filtered `BlastLine` record that `read_blast` produces:
original `query`/`subject` names (as numeric tokens), the coordinates
`qi`/`si` assigned from the orders (swapped into canonical position for a
self-comparison), and the chromosome identifiers `qseqid`/`sseqid`. -/
structure BlastRec where
  query : Nat
  subject : Nat
  qi : Nat
  si : Nat
  qseqid : Nat
  sseqid : Nat
deriving DecidableEq, Repr

/-- The loop of `read_blast`: rows are `(query, subject)` name pairs; an
order maps a name to `(index, seqid)` (the source's `qorder[query] = qi, q`
with `q.seqid`).  Rows whose names are unmapped are dropped; rows whose
`(query, subject)` name pair was already seen are dropped; for a
self-comparison with `qi > si` the coordinates and seqids are swapped
(`b.query`/`b.subject` keep their original values — only `qi`, `si`,
`qseqid`, `sseqid` are reassigned). -/
def read_blast_aux (qorder sorder : List (Nat × Nat × Nat)) (is_self : Bool) :
    List (Nat × Nat) → List (Nat × Nat) → List BlastRec
  | _, [] => []
  | seen, (query, subject) :: rest =>
    match List.lookup query qorder, List.lookup subject sorder with
    | some (qi, qseq), some (si, sseq) =>
      if (query, subject) ∈ seen then
        read_blast_aux qorder sorder is_self seen rest
      else
        (if is_self && decide (si < qi) then
            (⟨query, subject, si, qi, sseq, qseq⟩ : BlastRec)
          else
            ⟨query, subject, qi, si, qseq, sseq⟩) ::
          read_blast_aux qorder sorder is_self ((query, subject) :: seen) rest
    | _, _ => read_blast_aux qorder sorder is_self seen rest

/-- `read_blast(blast_file, qorder, sorder, is_self)` on the already-parsed
`(query, subject)` rows of the blast file. -/
def read_blast (rows : List (Nat × Nat)) (qorder sorder : List (Nat × Nat × Nat))
    (is_self : Bool) : List BlastRec :=
  read_blast_aux qorder sorder is_self [] rows

/-! ## Sorting lemmas -/

theorem sortPoints_sorted (l : List Point) : List.Sorted PtLe (sortPoints l) :=
  List.sorted_insertionSort PtLe l

theorem sortPoints_perm (l : List Point) : List.Perm (sortPoints l) l :=
  List.perm_insertionSort PtLe l

theorem sortPoints_eq_of_perm {l l' : List Point} (h : List.Perm l l') :
    sortPoints l = sortPoints l' :=
  List.eq_of_perm_of_sorted
    (((sortPoints_perm l).trans h).trans (sortPoints_perm l').symm)
    (sortPoints_sorted l) (sortPoints_sorted l')

theorem mem_sortPoints {a : Point} {l : List Point} : a ∈ sortPoints l ↔ a ∈ l :=
  (sortPoints_perm l).mem_iff

theorem score_perm {c c' : List Point} (h : List.Perm c c') : score c = score c' := by
  unfold score
  rw [((h.map Prod.fst).dedup).length_eq, ((h.map Prod.snd).dedup).length_eq]

theorem ptLe_x {p q : Point} (h : PtLe p q) : p.1 ≤ q.1 := by
  unfold PtLe at h; omega

/-! ## Join scan lemmas -/

theorem mem_scanBack_sound {xd yd : Int} {p u v : Point} :
    ∀ {rev : List Point}, (u, v) ∈ scanBack xd yd p rev →
      u = p ∧ v ∈ rev ∧ p.1 - v.1 ≤ xd ∧ |p.2 - v.2| ≤ yd
  | [], h => by simp [scanBack] at h
  | q :: rest, h => by
    unfold scanBack at h
    split at h
    · simp at h
    · split at h
      · obtain ⟨hu, hv, hx, hy⟩ := mem_scanBack_sound h
        exact ⟨hu, List.mem_cons_of_mem _ hv, hx, hy⟩
      · rcases List.mem_cons.1 h with heq | h'
        · cases heq
          exact ⟨rfl, List.mem_cons_self .., by omega, by omega⟩
        · obtain ⟨hu, hv, hx, hy⟩ := mem_scanBack_sound h'
          exact ⟨hu, List.mem_cons_of_mem _ hv, hx, hy⟩

theorem scanBack_complete {xd yd : Int} {p b : Point} :
    ∀ {rev : List Point}, List.Pairwise (fun u v => PtLe v u) rev →
      b ∈ rev → p.1 - b.1 ≤ xd → |p.2 - b.2| ≤ yd →
      (p, b) ∈ scanBack xd yd p rev
  | [], _, hb, _, _ => absurd hb (List.not_mem_nil b)
  | q :: rest, hrev, hb, hx, hy => by
    unfold scanBack
    rcases List.mem_cons.1 hb with rfl | hb'
    · rw [if_neg (by omega), if_neg (by omega)]
      exact List.mem_cons_self ..
    · have hbq : PtLe b q := (List.pairwise_cons.1 hrev).1 b hb'
      have hq : ¬ xd < p.1 - q.1 := by have := ptLe_x hbq; omega
      rw [if_neg hq]
      have ih := scanBack_complete (List.pairwise_cons.1 hrev).2 hb' hx hy
      split
      · exact ih
      · exact List.mem_cons_of_mem _ ih

theorem joinsAux_sound {xd yd : Int} {u v : Point} :
    ∀ {l rev : List Point}, List.Sorted PtLe (rev.reverse ++ l) →
      (u, v) ∈ joinsAux xd yd rev l →
      u ∈ l ∧ (v ∈ rev ∨ v ∈ l) ∧ PtLe v u ∧ u.1 - v.1 ≤ xd ∧ |u.2 - v.2| ≤ yd
  | [], _, _, h => by simp [joinsAux] at h
  | p :: rest, rev, hs, h => by
    rcases List.mem_append.1 h with hsb | hrec
    · obtain ⟨hu, hv, hx, hy⟩ := mem_scanBack_sound hsb
      subst hu
      have hvu : PtLe v u := by
        have := (List.pairwise_append.1 hs).2.2
        exact this v (List.mem_reverse.2 hv) u (List.mem_cons_self ..)
      exact ⟨List.mem_cons_self .., Or.inl hv, hvu, hx, hy⟩
    · have hs' : List.Sorted PtLe ((p :: rev).reverse ++ rest) := by
        simpa [List.append_assoc] using hs
      obtain ⟨hu, hv, hvu, hx, hy⟩ := joinsAux_sound hs' hrec
      refine ⟨List.mem_cons_of_mem _ hu, ?_, hvu, hx, hy⟩
      rcases hv with hv | hv
      · rcases List.mem_cons.1 hv with rfl | hv'
        · exact Or.inr (List.mem_cons_self ..)
        · exact Or.inl hv'
      · exact Or.inr (List.mem_cons_of_mem _ hv)

theorem allJoins_sound {xd yd : Int} {u v : Point} {l : List Point}
    (hs : List.Sorted PtLe l) (h : (u, v) ∈ allJoins xd yd l) :
    u ∈ l ∧ v ∈ l ∧ PtLe v u ∧ u.1 - v.1 ≤ xd ∧ |u.2 - v.2| ≤ yd := by
  have h' : (u, v) ∈ joinsAux xd yd [] l := h
  have := joinsAux_sound
    (show List.Sorted PtLe (([] : List Point).reverse ++ l) by simpa using hs) h'
  tauto

theorem joinsAux_complete_dir {xd yd : Int} {a b : Point} :
    ∀ {l rev : List Point}, List.Sorted PtLe (rev.reverse ++ l) →
      a ∈ l → b ∈ rev → a.1 - b.1 ≤ xd → |a.2 - b.2| ≤ yd →
      (a, b) ∈ joinsAux xd yd rev l
  | [], _, _, ha, _, _, _ => absurd ha (List.not_mem_nil a)
  | p :: rest, rev, hs, ha, hb, hx, hy => by
    rcases List.mem_cons.1 ha with rfl | ha'
    · refine List.mem_append_left _ (scanBack_complete ?_ hb hx hy)
      have : List.Pairwise PtLe rev.reverse := (List.pairwise_append.1 hs).1
      simpa [List.pairwise_reverse] using this
    · refine List.mem_append_right _ ?_
      have hs' : List.Sorted PtLe ((p :: rev).reverse ++ rest) := by
        simpa [List.append_assoc] using hs
      exact joinsAux_complete_dir hs' ha' (List.mem_cons_of_mem _ hb) hx hy

theorem joinsAux_complete {xd yd : Int} {a b : Point} :
    ∀ {l rev : List Point}, List.Sorted PtLe (rev.reverse ++ l) →
      a ∈ l → b ∈ l → a ≠ b → |a.1 - b.1| ≤ xd → |a.2 - b.2| ≤ yd →
      (a, b) ∈ joinsAux xd yd rev l ∨ (b, a) ∈ joinsAux xd yd rev l
  | [], _, _, ha, _, _, _, _ => absurd ha (List.not_mem_nil a)
  | p :: rest, rev, hs, ha, hb, hab, hx, hy => by
    have hs' : List.Sorted PtLe ((p :: rev).reverse ++ rest) := by
      simpa [List.append_assoc] using hs
    rcases List.mem_cons.1 ha with rfl | ha' <;> rcases List.mem_cons.1 hb with hb0 | hb'
    · exact absurd hb0.symm hab
    · refine Or.inr (List.mem_append_right _ ?_)
      refine joinsAux_complete_dir hs' hb' (List.mem_cons_self ..) ?_ ?_
      · calc b.1 - a.1 ≤ |b.1 - a.1| := le_abs_self _
          _ = |a.1 - b.1| := abs_sub_comm ..
          _ ≤ xd := hx
      · calc |b.2 - a.2| = |a.2 - b.2| := abs_sub_comm ..
          _ ≤ yd := hy
    · subst hb0
      refine Or.inl (List.mem_append_right _ ?_)
      refine joinsAux_complete_dir hs' ha' (List.mem_cons_self ..) ?_ hy
      calc a.1 - b.1 ≤ |a.1 - b.1| := le_abs_self _
        _ ≤ xd := hx
    · rcases joinsAux_complete hs' ha' hb' hab hx hy with h | h
      · exact Or.inl (List.mem_append_right _ h)
      · exact Or.inr (List.mem_append_right _ h)

theorem allJoins_complete {xd yd : Int} {a b : Point} {l : List Point}
    (hs : List.Sorted PtLe l) (ha : a ∈ l) (hb : b ∈ l) (hab : a ≠ b)
    (hx : |a.1 - b.1| ≤ xd) (hy : |a.2 - b.2| ≤ yd) :
    (a, b) ∈ allJoins xd yd l ∨ (b, a) ∈ allJoins xd yd l := by
  show (a, b) ∈ joinsAux xd yd [] l ∨ (b, a) ∈ joinsAux xd yd [] l
  exact joinsAux_complete
    (show List.Sorted PtLe (([] : List Point).reverse ++ l) by simpa using hs)
    ha hb hab hx hy

/-! ## Union-find (Grouper) lemmas -/

/-- Two points lie in a common group of the structure `gs`. -/
def InSameGroup (gs : List (List Point)) (x y : Point) : Prop :=
  ∃ g ∈ gs, x ∈ g ∧ y ∈ g

theorem addJoin_def (a b : Point) (gs : List (List Point)) :
    addJoin a b gs =
      (a :: b :: ((gs.filter fun g => decide (a ∈ g ∨ b ∈ g)).flatten)).dedup ::
        gs.filter (fun g => !decide (a ∈ g ∨ b ∈ g)) := rfl

theorem mem_addJoin_head {a b x : Point} {gs : List (List Point)} :
    x ∈ (a :: b :: ((gs.filter fun g => decide (a ∈ g ∨ b ∈ g)).flatten)).dedup ↔
      x = a ∨ x = b ∨ ∃ g ∈ gs, (a ∈ g ∨ b ∈ g) ∧ x ∈ g := by
  rw [List.mem_dedup, List.mem_cons, List.mem_cons, List.mem_flatten]
  constructor
  · rintro (rfl | rfl | ⟨g, hg, hx⟩)
    · exact Or.inl rfl
    · exact Or.inr (Or.inl rfl)
    · have h := List.mem_filter.1 hg
      exact Or.inr (Or.inr ⟨g, h.1, by simpa using h.2, hx⟩)
  · rintro (rfl | rfl | ⟨g, hg, hab, hx⟩)
    · exact Or.inl rfl
    · exact Or.inr (Or.inl rfl)
    · exact Or.inr (Or.inr ⟨g, List.mem_filter.2 ⟨hg, by simpa using hab⟩, hx⟩)

theorem addJoin_pair_mem (a b : Point) (gs : List (List Point)) :
    InSameGroup (addJoin a b gs) a b := by
  rw [addJoin_def]
  exact ⟨_, List.mem_cons_self .., mem_addJoin_head.2 (Or.inl rfl),
    mem_addJoin_head.2 (Or.inr (Or.inl rfl))⟩

theorem addJoin_mono {a b x y : Point} {gs : List (List Point)}
    (h : InSameGroup gs x y) : InSameGroup (addJoin a b gs) x y := by
  obtain ⟨g, hg, hx, hy⟩ := h
  rw [addJoin_def]
  by_cases hab : a ∈ g ∨ b ∈ g
  · exact ⟨_, List.mem_cons_self ..,
      mem_addJoin_head.2 (Or.inr (Or.inr ⟨g, hg, hab, hx⟩)),
      mem_addJoin_head.2 (Or.inr (Or.inr ⟨g, hg, hab, hy⟩))⟩
  · exact ⟨g, List.mem_cons_of_mem _ (List.mem_filter.2 ⟨hg, by simpa using hab⟩),
      hx, hy⟩

theorem foldl_addJoin_mono {x y : Point} {js : List (Point × Point)}
    {gs : List (List Point)} (h : InSameGroup gs x y) :
    InSameGroup (js.foldl (fun gs j => addJoin j.1 j.2 gs) gs) x y := by
  induction js generalizing gs with
  | nil => exact h
  | cons j js ih => exact ih (addJoin_mono h)

theorem foldl_addJoin_pair_mem {u v : Point} {js : List (Point × Point)}
    {gs : List (List Point)} (h : (u, v) ∈ js) :
    InSameGroup (js.foldl (fun gs j => addJoin j.1 j.2 gs) gs) u v := by
  induction js generalizing gs with
  | nil => exact absurd h (List.not_mem_nil _)
  | cons j js ih =>
    rcases List.mem_cons.1 h with heq | h'
    · cases heq.symm
      rw [List.foldl_cons]
      exact foldl_addJoin_mono (addJoin_pair_mem u v gs)
    · exact ih h'

theorem runJoins_pair_mem {u v : Point} {js : List (Point × Point)}
    (h : (u, v) ∈ js) : InSameGroup (runJoins js) u v :=
  foldl_addJoin_pair_mem h

theorem addJoin_members {P : Point → Prop} {a b : Point} {gs : List (List Point)}
    (hgs : ∀ g ∈ gs, ∀ x ∈ g, P x) (ha : P a) (hb : P b) :
    ∀ g ∈ addJoin a b gs, ∀ x ∈ g, P x := by
  rw [addJoin_def]
  intro g hg x hx
  rcases List.mem_cons.1 hg with rfl | hg'
  · rcases mem_addJoin_head.1 hx with rfl | rfl | ⟨g', hg', _, hx'⟩
    · exact ha
    · exact hb
    · exact hgs g' hg' x hx'
  · exact hgs g (List.mem_of_mem_filter hg') x hx

theorem foldl_addJoin_members {P : Point → Prop} {js : List (Point × Point)}
    {gs : List (List Point)} (hgs : ∀ g ∈ gs, ∀ x ∈ g, P x)
    (hjs : ∀ j ∈ js, P j.1 ∧ P j.2) :
    ∀ g ∈ js.foldl (fun gs j => addJoin j.1 j.2 gs) gs, ∀ x ∈ g, P x := by
  induction js generalizing gs with
  | nil => exact hgs
  | cons j js ih =>
    exact ih
      (addJoin_members hgs (hjs j (List.mem_cons_self ..)).1
        (hjs j (List.mem_cons_self ..)).2)
      (fun j' hj' => hjs j' (List.mem_cons_of_mem _ hj'))

theorem runJoins_members {P : Point → Prop} {js : List (Point × Point)}
    (hjs : ∀ j ∈ js, P j.1 ∧ P j.2) :
    ∀ g ∈ runJoins js, ∀ x ∈ g, P x :=
  foldl_addJoin_members (by simp) hjs

theorem addJoin_nonempty {a b : Point} {gs : List (List Point)}
    (hgs : ∀ g ∈ gs, g ≠ []) : ∀ g ∈ addJoin a b gs, g ≠ [] := by
  rw [addJoin_def]
  intro g hg
  rcases List.mem_cons.1 hg with rfl | hg'
  · exact List.ne_nil_of_mem (mem_addJoin_head.2 (Or.inl rfl))
  · exact hgs g (List.mem_of_mem_filter hg')

theorem foldl_addJoin_nonempty {js : List (Point × Point)}
    {gs : List (List Point)} (hgs : ∀ g ∈ gs, g ≠ []) :
    ∀ g ∈ js.foldl (fun gs j => addJoin j.1 j.2 gs) gs, g ≠ [] := by
  induction js generalizing gs with
  | nil => exact hgs
  | cons j js ih => exact ih (addJoin_nonempty hgs)

theorem runJoins_nonempty {js : List (Point × Point)} :
    ∀ g ∈ runJoins js, g ≠ [] :=
  foldl_addJoin_nonempty (by simp)

theorem disjoint_symmetric : Symmetric (@List.Disjoint Point) :=
  fun _ _ h => h.symm

theorem addJoin_disjoint {a b : Point} {gs : List (List Point)}
    (hgs : List.Pairwise List.Disjoint gs) :
    List.Pairwise List.Disjoint (addJoin a b gs) := by
  rw [addJoin_def]
  refine List.pairwise_cons.2 ⟨?_, hgs.sublist (List.filter_sublist gs)⟩
  intro u hu x hx hxu
  have hu' := List.mem_filter.1 hu
  have huc : ¬ (a ∈ u ∨ b ∈ u) := by simpa using hu'.2
  rcases mem_addJoin_head.1 hx with rfl | rfl | ⟨g', hg', hab', hx'⟩
  · exact huc (Or.inl hxu)
  · exact huc (Or.inr hxu)
  · have hne : g' ≠ u := fun h => huc (h ▸ hab')
    exact hgs.forall disjoint_symmetric hg' hu'.1 hne hx' hxu

theorem foldl_addJoin_disjoint {js : List (Point × Point)}
    {gs : List (List Point)} (hgs : List.Pairwise List.Disjoint gs) :
    List.Pairwise List.Disjoint (js.foldl (fun gs j => addJoin j.1 j.2 gs) gs) := by
  induction js generalizing gs with
  | nil => exact hgs
  | cons j js ih => exact ih (addJoin_disjoint hgs)

theorem runJoins_disjoint {js : List (Point × Point)} :
    List.Pairwise List.Disjoint (runJoins js) :=
  foldl_addJoin_disjoint List.Pairwise.nil

theorem addJoin_coherent (R : Point → Point → Prop)
    (hsym : ∀ x y, R x y → R y x) (htrans : ∀ x y z, R x y → R y z → R x z)
    (hrefl : ∀ x, R x x) {a b : Point} {gs : List (List Point)}
    (hgs : ∀ g ∈ gs, ∀ x ∈ g, ∀ y ∈ g, R x y) (hab : R a b) :
    ∀ g ∈ addJoin a b gs, ∀ x ∈ g, ∀ y ∈ g, R x y := by
  rw [addJoin_def]
  have key : ∀ x, (x = a ∨ x = b ∨ ∃ g ∈ gs, (a ∈ g ∨ b ∈ g) ∧ x ∈ g) → R x a := by
    rintro x (rfl | rfl | ⟨g', hg', hab', hx'⟩)
    · exact hrefl _
    · exact hsym _ _ hab
    · rcases hab' with hag | hbg
      · exact hgs g' hg' x hx' a hag
      · exact htrans x b a (hgs g' hg' x hx' b hbg) (hsym a b hab)
  intro g hg x hx y hy
  rcases List.mem_cons.1 hg with rfl | hg'
  · exact htrans x a y (key x (mem_addJoin_head.1 hx))
      (hsym y a (key y (mem_addJoin_head.1 hy)))
  · exact hgs g (List.mem_of_mem_filter hg') x hx y hy

theorem foldl_addJoin_coherent (R : Point → Point → Prop)
    (hsym : ∀ x y, R x y → R y x) (htrans : ∀ x y z, R x y → R y z → R x z)
    (hrefl : ∀ x, R x x) {js : List (Point × Point)} {gs : List (List Point)}
    (hgs : ∀ g ∈ gs, ∀ x ∈ g, ∀ y ∈ g, R x y) (hjs : ∀ j ∈ js, R j.1 j.2) :
    ∀ g ∈ js.foldl (fun gs j => addJoin j.1 j.2 gs) gs, ∀ x ∈ g, ∀ y ∈ g, R x y := by
  induction js generalizing gs with
  | nil => exact hgs
  | cons j js ih =>
    exact ih
      (addJoin_coherent R hsym htrans hrefl hgs (hjs j (List.mem_cons_self ..)))
      (fun j' hj' => hjs j' (List.mem_cons_of_mem _ hj'))

theorem runJoins_coherent (R : Point → Point → Prop)
    (hsym : ∀ x y, R x y → R y x) (htrans : ∀ x y z, R x y → R y z → R x z)
    (hrefl : ∀ x, R x x) {js : List (Point × Point)} (hjs : ∀ j ∈ js, R j.1 j.2) :
    ∀ g ∈ runJoins js, ∀ x ∈ g, ∀ y ∈ g, R x y :=
  foldl_addJoin_coherent R hsym htrans hrefl (by simp) hjs

/-! ## Partition lemmas for the collected clusters -/

theorem eq_of_shared_mem {P : List (List Point)} (hP : List.Pairwise List.Disjoint P)
    {g₁ g₂ : List Point} (h₁ : g₁ ∈ P) (h₂ : g₂ ∈ P) {x : Point}
    (hx₁ : x ∈ g₁) (hx₂ : x ∈ g₂) : g₁ = g₂ := by
  by_contra hne
  exact hP.forall disjoint_symmetric h₁ h₂ hne hx₁ hx₂

theorem collectClusters_disjoint (l : List Point) (js : List (Point × Point)) :
    List.Pairwise List.Disjoint (collectClusters l js) := by
  unfold collectClusters
  rw [List.pairwise_append]
  refine ⟨runJoins_disjoint, ?_, ?_⟩
  · rw [List.pairwise_map]
    refine List.Pairwise.imp ?_ (((List.nodup_dedup l).filter _))
    intro p q hpq z hzp hzq
    exact hpq (List.mem_singleton.1 hzp ▸ List.mem_singleton.1 hzq ▸ rfl)
  · intro g hg s hs z hzg hzs
    obtain ⟨p, hp, rfl⟩ := List.mem_map.1 hs
    have hcond : ∀ g' ∈ runJoins js, p ∉ g' := by
      simpa using (List.mem_filter.1 hp).2
    exact hcond g hg (List.mem_singleton.1 hzs ▸ hzg)

theorem collectClusters_cover {l : List Point} {x : Point} (hx : x ∈ l)
    (js : List (Point × Point)) : ∃ g ∈ collectClusters l js, x ∈ g := by
  unfold collectClusters
  by_cases h : ∃ g ∈ runJoins js, x ∈ g
  · obtain ⟨g, hg, hxg⟩ := h
    exact ⟨g, List.mem_append_left _ hg, hxg⟩
  · push_neg at h
    refine ⟨[x], List.mem_append_right _ ?_, List.mem_singleton.2 rfl⟩
    exact List.mem_map.2
      ⟨x, List.mem_filter.2 ⟨List.mem_dedup.2 hx, by simpa using h⟩, rfl⟩

theorem collectClusters_sub {l : List Point} {js : List (Point × Point)}
    (hjs : ∀ j ∈ js, j.1 ∈ l ∧ j.2 ∈ l) :
    ∀ g ∈ collectClusters l js, ∀ x ∈ g, x ∈ l := by
  unfold collectClusters
  intro g hg x hx
  rcases List.mem_append.1 hg with hg' | hg'
  · exact runJoins_members hjs g hg' x hx
  · obtain ⟨p, hp, rfl⟩ := List.mem_map.1 hg'
    exact List.mem_singleton.1 hx ▸ List.mem_dedup.1 (List.mem_of_mem_filter hp)

theorem collectClusters_nonempty (l : List Point) (js : List (Point × Point)) :
    ∀ g ∈ collectClusters l js, g ≠ [] := by
  unfold collectClusters
  intro g hg
  rcases List.mem_append.1 hg with hg' | hg'
  · exact runJoins_nonempty g hg'
  · obtain ⟨p, _, rfl⟩ := List.mem_map.1 hg'
    exact List.cons_ne_nil p []

/-! ## Scan cluster properties -/

/-- A single join performed by the scan of `synteny_scan(points, ...)`,
together with its distance bounds, as an undirected step relation: the later
point `u` was joined to the earlier point `v` (or vice versa) with
`del_x <= xdist` and `abs(del_y) <= ydist` holding at the time of joining. -/
def ScanJoinStep (points : List Point) (xdist ydist : Int) (u v : Point) : Prop :=
  ((u, v) ∈ allJoins xdist ydist (sortPoints points) ∧
    u.1 - v.1 ≤ xdist ∧ |u.2 - v.2| ≤ ydist) ∨
  ((v, u) ∈ allJoins xdist ydist (sortPoints points) ∧
    v.1 - u.1 ≤ xdist ∧ |v.2 - u.2| ≤ ydist)

/-- `a` and `b` are within both distance bounds of each other. -/
def WithinBounds (xdist ydist : Int) (a b : Point) : Prop :=
  |a.1 - b.1| ≤ xdist ∧ |a.2 - b.2| ≤ ydist

theorem scanJoinStep_symm {points : List Point} {xd yd : Int} :
    Symmetric (ScanJoinStep points xd yd) := by
  intro u v h
  unfold ScanJoinStep at *
  tauto

theorem scanClusters_coherent (points : List Point) (xd yd : Int) :
    ∀ g ∈ scanClusters points xd yd, ∀ x ∈ g, ∀ y ∈ g,
      Relation.ReflTransGen (ScanJoinStep points xd yd) x y := by
  have hstep : ∀ j ∈ allJoins xd yd (sortPoints points),
      Relation.ReflTransGen (ScanJoinStep points xd yd) j.1 j.2 := by
    intro j hj
    obtain ⟨u, v⟩ := j
    obtain ⟨_, _, _, hx, hy⟩ := allJoins_sound (sortPoints_sorted points) hj
    exact Relation.ReflTransGen.single (Or.inl ⟨hj, hx, hy⟩)
  unfold scanClusters collectClusters
  intro g hg x hx y hy
  rcases List.mem_append.1 hg with hg' | hg'
  · exact runJoins_coherent (Relation.ReflTransGen (ScanJoinStep points xd yd))
      (fun x y h => (Relation.ReflTransGen.symmetric scanJoinStep_symm) h)
      (fun x y z h1 h2 => h1.trans h2)
      (fun x => Relation.ReflTransGen.refl)
      hstep g hg' x hx y hy
  · obtain ⟨p, _, rfl⟩ := List.mem_map.1 hg'
    rw [List.mem_singleton.1 hx, List.mem_singleton.1 hy]

theorem scanClusters_sub (points : List Point) (xd yd : Int) :
    ∀ g ∈ scanClusters points xd yd, ∀ x ∈ g, x ∈ sortPoints points := by
  unfold scanClusters
  refine collectClusters_sub ?_
  intro j hj
  obtain ⟨u, v⟩ := j
  obtain ⟨hu, hv, _⟩ := allJoins_sound (sortPoints_sorted points) hj
  exact ⟨hu, hv⟩

theorem scanClusters_disjoint (points : List Point) (xd yd : Int) :
    List.Pairwise List.Disjoint (scanClusters points xd yd) :=
  collectClusters_disjoint _ _

theorem scanClusters_separation {points : List Point} {xd yd : Int}
    {g₁ g₂ : List Point} (h₁ : g₁ ∈ scanClusters points xd yd)
    (h₂ : g₂ ∈ scanClusters points xd yd) (hne : g₁ ≠ g₂)
    {a b : Point} (ha : a ∈ g₁) (hb : b ∈ g₂) :
    ¬ WithinBounds xd yd a b := by
  rintro ⟨hx, hy⟩
  have hdisj := scanClusters_disjoint points xd yd
  have hab : a ≠ b := fun h =>
    hne (eq_of_shared_mem hdisj h₁ h₂ ha (h ▸ hb))
  have hmem₁ := scanClusters_sub points xd yd g₁ h₁ a ha
  have hmem₂ := scanClusters_sub points xd yd g₂ h₂ b hb
  have hrun : ∀ {u v : Point}, (u, v) ∈ allJoins xd yd (sortPoints points) →
      u ∈ g₁ → v ∈ g₂ → False := by
    intro u v hj hu hv
    obtain ⟨g, hg, hug, hvg⟩ := runJoins_pair_mem hj
    have hg' : g ∈ scanClusters points xd yd := by
      unfold scanClusters collectClusters
      exact List.mem_append_left _ hg
    have e₁ : g = g₁ := eq_of_shared_mem hdisj hg' h₁ hug hu
    have e₂ : g = g₂ := eq_of_shared_mem hdisj hg' h₂ hvg hv
    exact hne (e₁ ▸ e₂)
  rcases allJoins_complete (sortPoints_sorted points) hmem₁ hmem₂ hab hx hy with hj | hj
  · exact hrun hj ha hb
  · obtain ⟨g, hg, hug, hvg⟩ := runJoins_pair_mem hj
    have hg' : g ∈ scanClusters points xd yd := by
      unfold scanClusters collectClusters
      exact List.mem_append_left _ hg
    have e₁ : g = g₂ := eq_of_shared_mem hdisj hg' h₂ hug hb
    have e₂ : g = g₁ := eq_of_shared_mem hdisj hg' h₁ hvg ha
    exact hne (e₂.symm.trans e₁)

/-! ## Liftover lemmas -/

theorem zip_self_map {α β : Type} (f : α → β) :
    ∀ l : List α, l.zip (l.map f) = l.map fun a => (a, f a)
  | [] => rfl
  | a :: l => by simp [zip_self_map f l]

theorem zip_self {α : Type} : ∀ l : List α, l.zip l = l.map fun a => (a, a)
  | [] => rfl
  | a :: l => by simp [zip_self l]

theorem firstTwo_take (r : List Int) : firstTwo (r.take 2) = firstTwo r := by
  match r with
  | [] => rfl
  | [x] => rfl
  | x :: y :: rest => rfl

theorem liftover_eq_filter {points : List (List Int)} {anchors : List Point}
    {dist : Int} (h : points ≠ []) :
    synteny_liftover points anchors dist =
      some (points.filter fun r => kdWithin anchors (firstTwo r) dist) := by
  obtain ⟨r0, tl, rfl⟩ := List.exists_cons_of_ne_nil h
  show some _ = _
  congr 1
  rw [List.tail_cons]
  by_cases h2 : 2 < r0.length
  · rw [if_pos h2, zip_self_map, List.filter_map, List.map_map]
    simp [Function.comp_def, firstTwo_take]
  · rw [if_neg h2, zip_self, List.filter_map, List.map_map]
    simp [Function.comp_def]

/-! ## Blast ingestion lemmas -/

theorem read_blast_aux_qi_le_si (qorder sorder : List (Nat × Nat × Nat)) :
    ∀ (rows seen : List (Nat × Nat)),
      ∀ r ∈ read_blast_aux qorder sorder true seen rows, r.qi ≤ r.si := by
  intro rows
  induction rows with
  | nil => intro seen r hr; simp [read_blast_aux] at hr
  | cons row rest ih =>
    intro seen r hr
    obtain ⟨query, subject⟩ := row
    rw [read_blast_aux] at hr
    split at hr
    · split at hr
      · exact ih seen r hr
      · rcases List.mem_cons.1 hr with heq | hr'
        · rename_i qi qseq si sseq hq hs hseen
          subst heq
          split
          · rename_i hc
            have hlt : si < qi := by simpa using hc
            show si ≤ qi
            omega
          · rename_i hc
            have hge : ¬ si < qi := by simpa using hc
            show qi ≤ si
            omega
        · exact ih _ r hr'
    · exact ih seen r hr

theorem read_blast_aux_keys (qorder sorder : List (Nat × Nat × Nat)) (is_self : Bool) :
    ∀ (rows seen : List (Nat × Nat)),
      (∀ r ∈ read_blast_aux qorder sorder is_self seen rows, (r.query, r.subject) ∉ seen) ∧
      List.Pairwise (fun r r' => (r.query, r.subject) ≠ (r'.query, r'.subject))
        (read_blast_aux qorder sorder is_self seen rows) := by
  intro rows
  induction rows with
  | nil => intro seen; refine ⟨?_, ?_⟩ <;> simp [read_blast_aux]
  | cons row rest ih =>
    intro seen
    obtain ⟨query, subject⟩ := row
    rw [read_blast_aux]
    split
    · split
      · exact ih seen
      · rename_i qi qseq si sseq hq hs hseen
        have hkey : ∀ r : BlastRec,
            r = (if is_self && decide (si < qi) then
                  (⟨query, subject, si, qi, sseq, qseq⟩ : BlastRec)
                 else ⟨query, subject, qi, si, qseq, sseq⟩) →
            (r.query, r.subject) = (query, subject) := by
          intro r hr; subst hr; split <;> rfl
        constructor
        · intro r hr
          rcases List.mem_cons.1 hr with heq | hr'
          · rw [hkey r heq]; exact hseen
          · intro hmem
            exact (ih ((query, subject) :: seen)).1 r hr' (List.mem_cons_of_mem _ hmem)
        · refine List.pairwise_cons.2 ⟨?_, (ih _).2⟩
          intro r' hr' hEq
          have h1 := (ih ((query, subject) :: seen)).1 r' hr'
          have hk := hkey _ rfl
          exact h1 (by rw [← hEq, hk]; exact List.mem_cons_self ..)
    · exact ih seen

/-! ## Claim theorems -/

theorem synteny_scan_eq (points : List Point) (xd yd : Int) (N : Nat) :
    synteny_scan points xd yd N =
      ((scanClusters points xd yd).filter fun c => decide (N ≤ score c)).map sortPoints := rfl

/-- C1: for every point list and bounds, any two points that `synteny_scan`
places in the same cluster are connected by a chain of joins performed by the
scan, each satisfying `del_x <= xdist` and `abs(del_y) <= ydist`; and no two
points placed in different clusters are themselves within both bounds of
each other. -/
theorem C1_scan_cluster_chain_and_separation (points : List Point) (xd yd : Int) (N : Nat) :
    (∀ c ∈ synteny_scan points xd yd N, ∀ a ∈ c, ∀ b ∈ c,
      Relation.ReflTransGen (ScanJoinStep points xd yd) a b) ∧
    (∀ c₁ ∈ synteny_scan points xd yd N, ∀ c₂ ∈ synteny_scan points xd yd N,
      c₁ ≠ c₂ → ∀ a ∈ c₁, ∀ b ∈ c₂, ¬ WithinBounds xd yd a b) := by
  constructor
  · intro c hc a ha b hb
    rw [synteny_scan_eq] at hc
    obtain ⟨g, hgf, rfl⟩ := List.mem_map.1 hc
    exact scanClusters_coherent points xd yd g (List.mem_of_mem_filter hgf)
      a (mem_sortPoints.1 ha) b (mem_sortPoints.1 hb)
  · intro c₁ hc₁ c₂ hc₂ hne a ha b hb
    rw [synteny_scan_eq] at hc₁ hc₂
    obtain ⟨g₁, hg₁f, rfl⟩ := List.mem_map.1 hc₁
    obtain ⟨g₂, hg₂f, rfl⟩ := List.mem_map.1 hc₂
    exact scanClusters_separation (List.mem_of_mem_filter hg₁f)
      (List.mem_of_mem_filter hg₂f) (fun h => hne (h ▸ rfl))
      (mem_sortPoints.1 ha) (mem_sortPoints.1 hb)

/-- Witness for C1 at a concrete input: `(0,0)` and `(1,1)` end up in the
same cluster of `synteny_scan [(0,0),(1,1)] 5 5 2` and are chain-connected. -/
theorem C1_scan_cluster_chain_and_separation_witness :
    Relation.ReflTransGen (ScanJoinStep [((0:Int),(0:Int)),(1,1)] 5 5) (0,0) (1,1) :=
  (C1_scan_cluster_chain_and_separation [(0,0),(1,1)] 5 5 2).1
    [(0,0),(1,1)] (by decide) (0,0) (by decide) (1,1) (by decide)

/-- C2: on the points `{(0,0),(1,1),(2,2),(100,100)}` with
`x_dist = y_dist = 5` and `min_score = 2`, `synteny_scan` returns exactly
one cluster `[(0,0),(1,1),(2,2)]`, that cluster scores 3, and `(100,100)`
appears in no returned cluster. -/
theorem C2_scan_concrete_scenario :
    synteny_scan [((0:Int),(0:Int)), (1,1), (2,2), (100,100)] 5 5 2 =
      [[(0,0),(1,1),(2,2)]] ∧
    score [((0:Int),(0:Int)), (1,1), (2,2)] = 3 ∧
    (synteny_scan [((0:Int),(0:Int)), (1,1), (2,2), (100,100)] 5 5 2).all
      (fun c => !decide (((100:Int),(100:Int)) ∈ c)) = true := by decide

/-- C3: every cluster returned by `synteny_scan` has score at least `N`, and
every collected cluster of the partition whose score is at least `N` is
returned (after sorting), i.e. none is omitted. -/
theorem C3_score_filter (points : List Point) (xd yd : Int) (N : Nat) :
    (∀ c ∈ synteny_scan points xd yd N, N ≤ score c) ∧
    (∀ g ∈ scanClusters points xd yd, N ≤ score g →
      sortPoints g ∈ synteny_scan points xd yd N) := by
  constructor
  · intro c hc
    rw [synteny_scan_eq] at hc
    obtain ⟨g, hgf, rfl⟩ := List.mem_map.1 hc
    have hN : N ≤ score g := by simpa using (List.mem_filter.1 hgf).2
    rwa [score_perm (sortPoints_perm g)]
  · intro g hg hscore
    rw [synteny_scan_eq]
    exact List.mem_map.2 ⟨g, List.mem_filter.2 ⟨hg, by simpa using hscore⟩, rfl⟩

/-- Witness for C3 at a concrete input. -/
theorem C3_score_filter_witness : 2 ≤ score [((0:Int),(0:Int)),(1,1)] :=
  (C3_score_filter [((0:Int),(0:Int)),(1,1)] 5 5 2).1 [(0,0),(1,1)] (by decide)

/-- C4: the chaining loop on the ranges
`[(A,0,10,score=5,id=1), (A,5,15,score=3,id=2), (A,20,30,score=4,id=3)]`
with `max_iterations = 2` yields exactly two tracks: track 1 holds ids 1 and
3 with total score 9, track 2 holds id 2. -/
theorem C4_mcscan_concrete_scenario :
    mcscan 2 [⟨0,0,10,5,1⟩, ⟨0,5,15,3,2⟩, ⟨0,20,30,4,3⟩] =
      [[⟨0,0,10,5,1⟩, ⟨0,20,30,4,3⟩], [⟨0,5,15,3,2⟩]] ∧
    (mcscan 2 [⟨0,0,10,5,1⟩, ⟨0,5,15,3,2⟩, ⟨0,20,30,4,3⟩]).map
      (fun t => t.map SRange.id) = [[1,3],[2]] ∧
    (mcscan 2 [⟨0,0,10,5,1⟩, ⟨0,5,15,3,2⟩, ⟨0,20,30,4,3⟩]).map totalScore =
      [9, 3] := by decide

/-- C5 counterexample: on an empty hit list `synteny_liftover` fails
(`np.array([]).shape[1]` raises `IndexError`) instead of emitting nothing,
so the claim does not hold for every hit list. -/
theorem C5_liftover_empty_hits_counterexample :
    synteny_liftover [] [((0:Int),(0:Int))] 0 = none ∧
    synteny_liftover [] [((0:Int),(0:Int))] 0 ≠ some [] := by decide

/-- C5 (amended): for every NON-EMPTY hit list, non-empty anchor list and
bound, `synteny_liftover` emits exactly those hits whose minimal L1 distance
(computed on the first two coordinates) to an anchor is within `dist` — no
emitted hit has its nearest anchor farther than `dist`, every hit with an
anchor within `dist` is emitted — and the output is a sublist of the input
(same order). -/
theorem C5_liftover_nearest_within_bound (points : List (List Int))
    (anchors : List Point) (dist : Int) (hpts : points ≠ []) (hanc : anchors ≠ []) :
    ∃ out, synteny_liftover points anchors dist = some out ∧
      List.Sublist out points ∧
      (∀ r ∈ out, ∃ a ∈ anchors,
        (∀ b ∈ anchors, l1dist (firstTwo r) a ≤ l1dist (firstTwo r) b) ∧
        l1dist (firstTwo r) a ≤ dist) ∧
      (∀ r ∈ points, ∀ a ∈ anchors,
        (∀ b ∈ anchors, l1dist (firstTwo r) a ≤ l1dist (firstTwo r) b) →
        l1dist (firstTwo r) a ≤ dist → r ∈ out) := by
  refine ⟨_, liftover_eq_filter hpts, List.filter_sublist points, ?_, ?_⟩
  · intro r hr
    have h := List.mem_filter.1 hr
    have hkd : ∃ b ∈ anchors, l1dist (firstTwo r) b ≤ dist := by
      simpa [kdWithin] using h.2
    obtain ⟨b0, hb0, hb0le⟩ := hkd
    match hm : List.argmin (l1dist (firstTwo r)) anchors with
    | none => exact absurd (List.argmin_eq_none.1 hm) hanc
    | some m =>
      have hmm : m ∈ List.argmin (l1dist (firstTwo r)) anchors := Option.mem_def.2 hm
      refine ⟨m, List.argmin_mem hmm, fun b hb => List.le_of_mem_argmin hb hmm, ?_⟩
      exact le_trans (List.le_of_mem_argmin hb0 hmm) hb0le
  · intro r hr a ha _ hle
    refine List.mem_filter.2 ⟨hr, ?_⟩
    simp only [kdWithin, List.any_eq_true, decide_eq_true_eq]
    exact ⟨a, ha, hle⟩

/-- Witness for C5 at a concrete input. -/
theorem C5_liftover_nearest_within_bound_witness :
    (synteny_liftover [[(0:Int), 0]] [((0:Int),(0:Int))] 0).isSome = true := by
  obtain ⟨out, hout, -⟩ :=
    C5_liftover_nearest_within_bound [[0, 0]] [(0, 0)] 0 (by decide) (by decide)
  rw [hout]
  rfl

/-- C6: `synteny_scan` returns the same cluster list for any permutation of
its input point list (the single-linkage partition does not depend on input
order). -/
theorem C6_scan_permutation_invariant (points points' : List Point)
    (xd yd : Int) (N : Nat) (h : List.Perm points points') :
    synteny_scan points xd yd N = synteny_scan points' xd yd N := by
  rw [synteny_scan_eq, synteny_scan_eq]
  unfold scanClusters
  rw [sortPoints_eq_of_perm h]

/-- Witness for C6 at a concrete input. -/
theorem C6_scan_permutation_invariant_witness :
    synteny_scan [((0:Int),(0:Int)),(1,1)] 5 5 2 =
      synteny_scan [((1:Int),(1:Int)),(0,0)] 5 5 2 :=
  C6_scan_permutation_invariant [(0,0),(1,1)] [(1,1),(0,0)] 5 5 2 (by decide)

/-- C7: the clusters collected before the `min_score` filter form a
partition of the (distinct) input points — every input point belongs to
exactly one collected cluster, every collected cluster's members are input
points, collected clusters are non-empty — and every returned cluster's
member list is sorted ascending. -/
theorem C7_collected_clusters_partition (points : List Point) (xd yd : Int) (N : Nat) :
    (∀ p ∈ points, ∃ g, g ∈ scanClusters points xd yd ∧ p ∈ g ∧
      ∀ g', g' ∈ scanClusters points xd yd → p ∈ g' → g' = g) ∧
    (∀ g ∈ scanClusters points xd yd, ∀ x ∈ g, x ∈ points) ∧
    (∀ g ∈ scanClusters points xd yd, g ≠ []) ∧
    (∀ c ∈ synteny_scan points xd yd N, List.Sorted PtLe c) := by
  refine ⟨?_, ?_, ?_, ?_⟩
  · intro p hp
    obtain ⟨g, hg, hpg⟩ :=
      collectClusters_cover (mem_sortPoints.2 hp) (allJoins xd yd (sortPoints points))
    exact ⟨g, hg, hpg, fun g' hg' hpg' =>
      eq_of_shared_mem (scanClusters_disjoint points xd yd) hg' hg hpg' hpg⟩
  · exact fun g hg x hx => mem_sortPoints.1 (scanClusters_sub points xd yd g hg x hx)
  · exact collectClusters_nonempty _ _
  · intro c hc
    rw [synteny_scan_eq] at hc
    obtain ⟨g, -, rfl⟩ := List.mem_map.1 hc
    exact sortPoints_sorted g

/-- Witness for C7 at a concrete input. -/
theorem C7_collected_clusters_partition_witness :
    ∃ g, g ∈ scanClusters [((0:Int),(0:Int))] 5 5 ∧ ((0:Int),(0:Int)) ∈ g ∧
      ∀ g', g' ∈ scanClusters [((0:Int),(0:Int))] 5 5 → ((0:Int),(0:Int)) ∈ g' → g' = g :=
  (C7_collected_clusters_partition [(0,0)] 5 5 1).1 (0,0) (by decide)

/-- C8 counterexample: `synteny_scan` sorts its argument in place
(`points.sort()`), so after the call the caller's list `[(1,1),(0,0)]`
holds `[(0,0),(1,1)]` — not the original order. -/
theorem C8_scan_mutates_input_counterexample :
    (synteny_scan_st [((1:Int),(1:Int)), (0,0)] 5 5 1).1 = [(0,0),(1,1)] ∧
    ([((0:Int),(0:Int)),(1,1)] : List Point) ≠ [(1,1),(0,0)] := by decide

/-- C8 (amended): after `synteny_scan(points, ...)` the caller's list holds
the same elements as before (as a multiset) but sorted ascending by `(x,y)`
— the input is modified in place, only its membership is preserved. -/
theorem C8_scan_input_state_sorted_perm (points : List Point) (xd yd : Int) (N : Nat) :
    List.Perm (synteny_scan_st points xd yd N).1 points ∧
    List.Sorted PtLe (synteny_scan_st points xd yd N).1 :=
  ⟨sortPoints_perm points, sortPoints_sorted points⟩

/-- C9 counterexample: `read_blast` with `is_self = True` deduplicates on
the ordered `(query, subject)` NAME pair before canonicalization, so the
symmetric rows `(A,B)` and `(B,A)` both survive, yielding two records with
the same unordered coordinate pair `{0, 1}`. -/
theorem C9_read_blast_symmetric_duplicate_counterexample :
    (read_blast [(0,1),(1,0)] [(0,0,0),(1,1,0)] [(0,0,0),(1,1,0)] true).map
      (fun r => (r.qi, r.si)) = [(0,1),(0,1)] ∧
    ¬ List.Pairwise (fun r r' => ¬ (Nat.min r.qi r.si = Nat.min r'.qi r'.si ∧
        Nat.max r.qi r.si = Nat.max r'.qi r'.si))
      (read_blast [(0,1),(1,0)] [(0,0,0),(1,1,0)] [(0,0,0),(1,1,0)] true) := by decide

/-- C9 (amended): with `is_self = True` every record returned by
`read_blast` satisfies `qi <= si` (the unordered pair is normalized to one
canonical ordering), and no two returned records carry the same ordered
`(query, subject)` name pair; symmetric name pairs `a<->b` and `b<->a`,
however, both survive. -/
theorem C9_read_blast_self_canonicalization (rows : List (Nat × Nat))
    (qorder sorder : List (Nat × Nat × Nat)) :
    (∀ r ∈ read_blast rows qorder sorder true, r.qi ≤ r.si) ∧
    List.Pairwise (fun r r' => (r.query, r.subject) ≠ (r'.query, r'.subject))
      (read_blast rows qorder sorder true) :=
  ⟨read_blast_aux_qi_le_si qorder sorder rows [],
    (read_blast_aux_keys qorder sorder true rows []).2⟩

/-- Witness for C9 at a concrete input. -/
theorem C9_read_blast_self_canonicalization_witness :
    ({ query := 0, subject := 1, qi := 0, si := 1, qseqid := 0, sseqid := 0 } : BlastRec).qi ≤
      ({ query := 0, subject := 1, qi := 0, si := 1, qseqid := 0, sseqid := 0 } : BlastRec).si :=
  (C9_read_blast_self_canonicalization [(0,1)] [(0,0,0),(1,1,0)] [(0,0,0),(1,1,0)]).1
    _ (by decide)

/-- C10 counterexample: `synteny_liftover` on an empty hit list fails
(`IndexError` from `np.array([]).shape[1]`) rather than yielding no points. -/
theorem C10_liftover_empty_counterexample :
    synteny_liftover [] [((1:Int),(2:Int))] 10 = none ∧
    synteny_liftover [] [((1:Int),(2:Int))] 10 ≠ some [] := by decide

/-- C10 (amended): `synteny_scan` on an empty point list returns an empty
cluster list without failing; `synteny_liftover` on an empty hit list,
however, raises (its caller guards with `if not len(hits): continue`). -/
theorem C10_empty_input_behavior (xd yd : Int) (N : Nat)
    (anchors : List Point) (dist : Int) :
    synteny_scan [] xd yd N = [] ∧ synteny_liftover [] anchors dist = none :=
  ⟨rfl, rfl⟩
